import Mathlib

/-!
Verification of the curvature-estimation pipeline of the pycurv repository.

The development shallowly embeds the parts of the source that the claims
concern: the linear-algebra helpers of pysurf/linalg.py over exact reals,
the surface generation wrapper of pysurf/run_gen_surface.py, the parameter
handling and pipeline ordering of scripts/curvature_calculation.py, and the
graph cleaning (border and small-component purges), neighborhood radius,
worker dispatch and output record shape described by the specification for
the vector-voting core (whose implementation file is not part of the given
sources; those definitions are modelled from the specification and marked
as such in their doc comments).
-/

set_option maxRecDepth 4000

/-! ## Linear algebra helpers (src/pysurf/linalg.py), embedded over the reals -/

/-- Dot product of two real 3-vectors represented as nested pairs. -/
def dot3 (u v : ℝ × ℝ × ℝ) : ℝ :=
  u.1 * v.1 + u.2.1 * v.2.1 + u.2.2 * v.2.2

/-- Euclidean length of a real 3-vector, as computed in linalg.py via
math.sqrt of the dot product with itself. -/
noncomputable def euclideanLen (u : ℝ × ℝ × ℝ) : ℝ :=
  Real.sqrt (dot3 u u)

/-- Componentwise scaling of a 3-vector by the reciprocal of a scalar. -/
noncomputable def scaleInv (u : ℝ × ℝ × ℝ) (s : ℝ) : ℝ × ℝ × ℝ :=
  (u.1 / s, u.2.1 / s, u.2.2 / s)

/-- Normalization of a 3-vector to unit length (division by euclideanLen). -/
noncomputable def normalize3 (u : ℝ × ℝ × ℝ) : ℝ × ℝ × ℝ :=
  scaleInv u (euclideanLen u)

open Classical in
/-- The unnormalized output vector ov of perpendicular_vector
(src/pysurf/linalg.py lines 34-44): m is the first index with a nonzero
coordinate, n the next index cyclically, and ov has ov[n] = iv[m] and
ov[m] = -iv[n], all other entries zero. -/
noncomputable def perpOv (a b c : ℝ) : ℝ × ℝ × ℝ :=
  if a ≠ 0 then (-b, a, 0)
  else if b ≠ 0 then (0, -c, b)
  else (c, 0, -a)

open Classical in
/-- Core of perpendicular_vector (src/pysurf/linalg.py lines 31-51) on an
input 3-vector (a, b, c) that already passed the shape check: return None
for the zero vector; otherwise build the vector ov and return ov divided
by its length, or None if that length is zero. -/
noncomputable def perpVecCore (a b c : ℝ) : Option (ℝ × ℝ × ℝ) :=
  if a = 0 ∧ b = 0 ∧ c = 0 then none
  else if euclideanLen (perpOv a b c) = 0 then none
  else some (scaleInv (perpOv a b c) (euclideanLen (perpOv a b c)))

/-- Embedding of perpendicular_vector (src/pysurf/linalg.py lines 14-51):
a 1-D float array input is a real list; any list whose length is not 3
fails the shape assertion and yields None instead of an exception. -/
noncomputable def perpendicularVector (iv : List ℝ) : Option (ℝ × ℝ × ℝ) :=
  match iv with
  | [a, b, c] => perpVecCore a b c
  | _ => none

open Classical in
/-- Embedding of dot_norm (src/pysurf/linalg.py lines 139-169): v is the
difference pnorm - p; if its length is zero the function returns 0, else v
is normalized; if the length of nv is zero the function returns 0, else nv
is normalized; the result is the dot product of the normalized vectors. -/
noncomputable def dotNorm (p pnorm nv : ℝ × ℝ × ℝ) : ℝ :=
  let v : ℝ × ℝ × ℝ := (pnorm.1 - p.1, pnorm.2.1 - p.2.1, pnorm.2.2 - p.2.2)
  let mv := Real.sqrt (v.1 * v.1 + v.2.1 * v.2.1 + v.2.2 * v.2.2)
  if 0 < mv then
    let vn := scaleInv v mv
    let mnorm := Real.sqrt (nv.1 * nv.1 + nv.2.1 * nv.2.1 + nv.2.2 * nv.2.2)
    if 0 < mnorm then
      let nn := scaleInv nv mnorm
      vn.1 * nn.1 + vn.2.1 * nn.2.1 + vn.2.2 * nn.2.2
    else 0
  else 0

/-! ## Errors (pysurf/pexceptions, as used from src) and Except helpers -/

/-- The only exception type raised by the sources under src: PySegInputError
from pexceptions, carrying the raising expression and a message. -/
inductive PySegError where
  | pySegInputError (expr msg : String)
  deriving DecidableEq

/-- True exactly on the error case of an Except value. -/
def isErr {α : Type} : Except PySegError α → Bool
  | Except.error _ => true
  | Except.ok _ => false

/-- The payload of a successful Except value, if any. -/
def okPart {α : Type} : Except PySegError α → Option α
  | Except.error _ => none
  | Except.ok a => some a

/-! ## Surface generation wrapper (src/pysurf/run_gen_surface.py) -/

/-- A mesh triangle: three vertex positions and the triangle area, with
exact rational coordinates standing for the float triples of the input. -/
structure Triangle where
  v0 : ℚ × ℚ × ℚ
  v1 : ℚ × ℚ × ℚ
  v2 : ℚ × ℚ × ℚ
  area : ℚ
  deriving DecidableEq

/-- Surface produced by gen_surface as documented in the docstring of
run_gen_surface (src/pysurf/run_gen_surface.py lines 50-56): triangles with
zero area, if any are present, are removed from the resulting surface; no
check raises an error for them. -/
def genSurface (mesh : List Triangle) : List Triangle :=
  mesh.filter (fun t => decide (t.area ≠ 0))

/-- Embedding of run_gen_surface (src/pysurf/run_gen_surface.py lines
47-115) restricted to a mesh input: the function generates the surface and
returns it; the single raise statement in its body concerns only a wrong
input type for the optional save-as-vti branch and cannot fire for a mesh,
so the result is always a success value. -/
def runGenSurface (mesh : List Triangle) : Except PySegError (List Triangle) :=
  Except.ok (genSurface mesh)

/-- A concrete mesh holding one zero-area (degenerate) triangle and one
proper triangle. -/
def degenerateMesh : List Triangle :=
  [⟨(0, 0, 0), (1, 0, 0), (2, 0, 0), 0⟩,
   ⟨(0, 0, 0), (2, 0, 0), (0, 1, 0), 1⟩]

/-- The non-degenerate triangle of degenerateMesh. -/
def keptTriangle : Triangle := ⟨(0, 0, 0), (2, 0, 0), (0, 1, 0), 1⟩

/-! ## Parameter handling of simple_workflow (src/scripts/curvature_calculation.py) -/

/-- Which of the two radius parameters the first branch of simple_workflow
selects (it names the output file after g_max or after k). -/
inductive RadiusChoice where
  | useGmax
  | useK
  deriving DecidableEq

/-- Embedding of the parameter check opening simple_workflow
(src/scripts/curvature_calculation.py lines 427-437): if g_max is positive
the g_max naming is used; otherwise if k is positive the k naming is used;
otherwise PySegInputError is raised, before any file is read or any graph
is built. -/
def simpleWorkflowRadiusCheck (gMax k : ℚ) : Except PySegError RadiusChoice :=
  if 0 < gMax then Except.ok RadiusChoice.useGmax
  else if 0 < k then Except.ok RadiusChoice.useK
  else Except.error (PySegError.pySegInputError "simple_workflow"
    "Either g_max or k must be positive")

/-- Average edge length as used for the radius derivation; the method
PointGraph.calculate_average_edge_length is not part of the given sources.
Modelled from the spec: the average of the edge lengths over all edges of
the graph built from the original (pre-purge) surface. -/
def averageEdgeLength (lengths : List ℚ) : ℚ :=
  lengths.sum / lengths.length

/-- Embedding of the geodesic radius g_max that simple_workflow passes to
vector_voting (src/scripts/curvature_calculation.py lines 427-437 and
465-482): after the initial parameter check, the block guarded only by
k > 0 recomputes g_max as k times the average edge length of the point
graph of the original surface, regardless of whether a positive g_max was
supplied. -/
def simpleWorkflowGmax (gMax k lAve : ℚ) : Except PySegError ℚ :=
  match simpleWorkflowRadiusCheck gMax k with
  | Except.error e => Except.error e
  | Except.ok _ => Except.ok (if 0 < k then k * lAve else gMax)

/-! ## Orientation classification of the Normal Voting Pass -/

/-- Orientation class of a node from the eigenvalue gaps of its voting
tensor. Modelled from the spec: the implementation in vector_voting.py is
not part of the given sources; spec section 4.4 classifies with
lambda1 - lambda2 > epsilon * lambda1 giving class 1 (surface patch), else
lambda2 - lambda3 > eta * lambda1 giving class 2 (crease junction), else
class 3 (no preferred orientation). -/
def classifyNode (eps eta l1 l2 l3 : ℚ) : ℕ :=
  if eps * l1 < l1 - l2 then 1
  else if eta * l1 < l2 - l3 then 2
  else 3

/-- Whether the refined normal estimate is used for a node. Modelled from
the spec: the refined normal from the voting tensor is adopted for nodes
classified as surface patch (class 1). -/
def usesRefinedNormal (eps eta l1 l2 l3 : ℚ) : Bool :=
  classifyNode eps eta l1 l2 l3 == 1

/-! ## Pipeline step order (src/scripts/curvature_calculation.py) -/

/-- The externally visible stages of the two workflow functions. -/
inductive PipelineStep where
  | radiusCheck
  | buildGraph
  | borderPurge
  | componentPurge
  | radiusResolution
  | vectorVoting
  | saveOutput
  deriving DecidableEq

/-- Statement order of simple_workflow (src/scripts/curvature_calculation.py
lines 427-486): parameter check, graph build, find_vertices_near_border with
purge, find_small_connected_components with purge, average-edge-length based
radius resolution, vector_voting, save. -/
def simpleWorkflowSteps : List PipelineStep :=
  [PipelineStep.radiusCheck, PipelineStep.buildGraph, PipelineStep.borderPurge,
   PipelineStep.componentPurge, PipelineStep.radiusResolution,
   PipelineStep.vectorVoting, PipelineStep.saveOutput]

/-- Statement order of the per-region cleaning and estimation part of
workflow (src/scripts/curvature_calculation.py lines 111-128 and 213):
graph build, find_vertices_near_border with purge,
find_small_connected_components with purge, vector_voting, save. -/
def workflowSteps : List PipelineStep :=
  [PipelineStep.buildGraph, PipelineStep.borderPurge,
   PipelineStep.componentPurge, PipelineStep.vectorVoting,
   PipelineStep.saveOutput]

/-! ## Geodesic mesh graph and the two purges

TriangleGraph and its methods find_vertices_near_border and
find_small_connected_components are not part of the given sources.
The graph and both purges are therefore modelled from the spec
(sections 3 and 4.2): nodes carry a border flag assigned at build time
from the mesh boundary; edges are undirected with positive finite
weights; the border purge removes every node whose geodesic distance to
the nearest border node is below a threshold; the small-component purge
removes every node of a connected component smaller than a threshold;
each purge also drops the edges incident to removed nodes. Weights are
integers standing for the (positive, finite) edge lengths. -/

/-- A weighted graph over natural-number node ids: the node set, the
undirected weighted edge list, and the set of ids flagged as border nodes
when the graph was built from the mesh. -/
@[ext]
structure WGraph where
  nodesF : Finset ℕ
  edgesL : List (ℕ × ℕ × ℤ)
  borderF : Finset ℕ
  deriving DecidableEq

/-- The border nodes currently present in the graph. -/
def WGraph.borderSet (g : WGraph) : Finset ℕ := g.nodesF ∩ g.borderF

/-- Minimum of two optional distances, treating none as infinity. -/
def omin : Option ℤ → Option ℤ → Option ℤ
  | none, b => b
  | some a, none => some a
  | some a, some b => some (min a b)

/-- Candidate distance for node v contributed by edge e under the current
tentative distances d: the distance of the other endpoint plus the edge
weight, when v is an endpoint of e. -/
def edgeCand (d : ℕ → Option ℤ) (v : ℕ) (e : ℕ × ℕ × ℤ) : Option ℤ :=
  if e.2.1 = v then (d e.1).map (fun x => x + e.2.2)
  else if e.1 = v then (d e.2.1).map (fun x => x + e.2.2)
  else none

/-- One relaxation sweep of the multi-source shortest-path computation:
each node takes the minimum of its tentative distance and all candidates
through incident edges. -/
def relaxStep (g : WGraph) (d : ℕ → Option ℤ) : ℕ → Option ℤ :=
  fun v => g.edgesL.foldr (fun e acc => omin (edgeCand d v e) acc) (d v)

/-- Tentative distances before relaxation: zero on current border nodes,
infinity elsewhere. -/
def initialBorderDist (g : WGraph) : ℕ → Option ℤ :=
  fun v => if v ∈ g.borderSet then some 0 else none

/-- Geodesic distance from each node to the nearest border node, by
relaxing as many times as there are nodes. -/
def distToBorder (g : WGraph) : ℕ → Option ℤ :=
  (relaxStep g)^[g.nodesF.card] (initialBorderDist g)

/-- Strict comparison of an optional distance against the threshold;
an infinite distance is never below the threshold. -/
def oLt (a : Option ℤ) (t : ℤ) : Bool :=
  match a with
  | none => false
  | some x => decide (x < t)

/-- Nodes surviving the border purge: those whose geodesic distance to the
nearest border node is not below the threshold t. -/
def keepBorder (t : ℤ) (g : WGraph) : Finset ℕ :=
  g.nodesF.filter (fun v => oLt (distToBorder g v) t = false)

/-- Modelled from the spec: the border purge removes every node whose
geodesic distance to the nearest border node is below the threshold t,
together with its incident edges. -/
def purgeBorder (t : ℤ) (g : WGraph) : WGraph :=
  ⟨keepBorder t g,
   g.edgesL.filter (fun e => decide (e.1 ∈ keepBorder t g ∧ e.2.1 ∈ keepBorder t g)),
   g.borderF⟩

/-- Undirected adjacency from the edge list, in either orientation. -/
def adjMem (l : List (ℕ × ℕ × ℤ)) (u v : ℕ) : Bool :=
  l.any (fun e => (e.1 == u && e.2.1 == v) || (e.1 == v && e.2.1 == u))

/-- Adjacency of two present nodes of the graph. -/
def adjIn (g : WGraph) (u v : ℕ) : Prop :=
  u ∈ g.nodesF ∧ v ∈ g.nodesF ∧ adjMem g.edgesL u v = true

instance (g : WGraph) (u v : ℕ) : Decidable (adjIn g u v) := by
  unfold adjIn; infer_instance

/-- One expansion sweep of a component: add every node adjacent to the
current set. -/
def stepSet (g : WGraph) (s : Finset ℕ) : Finset ℕ :=
  s ∪ g.nodesF.filter (fun v => ∃ u ∈ s, adjIn g u v)

/-- The connected component of u, by expanding as many times as there are
nodes. -/
def compOf (g : WGraph) (u : ℕ) : Finset ℕ :=
  (stepSet g)^[g.nodesF.card] {u}

/-- Nodes surviving the small-component purge: those whose component has
at least the threshold size. -/
def keepSmall (cth : ℕ) (g : WGraph) : Finset ℕ :=
  g.nodesF.filter (fun v => cth ≤ (compOf g v).card)

/-- Modelled from the spec: the small-component purge removes every node
of a connected component smaller than cth nodes, together with its
incident edges. -/
def purgeSmall (cth : ℕ) (g : WGraph) : WGraph :=
  ⟨keepSmall cth g,
   g.edgesL.filter (fun e => decide (e.1 ∈ keepSmall cth g ∧ e.2.1 ∈ keepSmall cth g)),
   g.borderF⟩

/-- The Border/Component Filter in the order both workflow functions run
it: first the border purge, then the small-component purge. -/
def borderComponentFilter (t : ℤ) (cth : ℕ) (g : WGraph) : WGraph :=
  purgeSmall cth (purgeBorder t g)

/-- Every edge of the graph joins two present nodes. Graphs built from a
mesh satisfy this, and both purges re-establish it. -/
def edgesClosed (g : WGraph) : Prop :=
  ∀ e ∈ g.edgesL, e.1 ∈ g.nodesF ∧ e.2.1 ∈ g.nodesF

/-- A concrete graph: a path 0 - 1 - 2 with unit weights plus an isolated
node 3, with node 0 flagged as border. -/
def gEx : WGraph := ⟨{0, 1, 2, 3}, [(0, 1, 1), (1, 2, 1)], {0}⟩

/-! ## Worker dispatch of the Orchestrator -/

/-- Partition of a list into consecutive chunks of n + 1 elements. -/
def chunkList {α : Type} (n : ℕ) : List α → List (List α)
  | [] => []
  | x :: xs => ((x :: xs).take (n + 1)) :: chunkList n (xs.drop n)
termination_by l => l.length
decreasing_by simp [List.length_drop]; omega

/-- Modelled from the spec: the Orchestrator runs a fixed-size worker pool
over a static partition of the node list, each worker applying the pure
per-node computation to its chunk, and the per-chunk results are
concatenated; cores is the worker count. -/
def workerPoolMap {α β : Type} (f : α → β) (nodes : List α) (cores : ℕ) : List β :=
  ((chunkList (nodes.length / (cores + 1)) nodes).map (List.map f)).flatten

/-! ## Output records and property names -/

/-- Derived scalar fields of a Curvature Record. Modelled from the spec:
the computation in vector_voting.py is not part of the given sources;
Gaussian curvature is the product and mean curvature the average of the
two principal curvatures. -/
structure CurvatureRecord where
  kappa1 : ℚ
  kappa2 : ℚ
  gaussCurvatureVV : ℚ
  meanCurvatureVV : ℚ
  deriving DecidableEq

/-- Assembly of the derived scalars of a Curvature Record from the two
principal curvatures. -/
def buildCurvatureRecord (k1 k2 : ℚ) : CurvatureRecord :=
  ⟨k1, k2, k1 * k2, (k1 + k2) / 2⟩

/-- Names of the per-node arrays that workflow reads from the graph after
vector voting (src/scripts/curvature_calculation.py lines 233-251). -/
def workflowOutputPropertyNames : List String :=
  ["kappa_1", "kappa_2", "gauss_curvature_VV", "mean_curvature_VV",
   "shape_index_VV", "curvedness_VV"]

/-- Names of the vertex properties read by the tests
(src/testing/test_vector_voting.py lines 274-275, 496-498, 511-514). -/
def testedPropertyNames : List String :=
  ["normal", "N_v", "T_1", "T_2", "kappa_1", "kappa_2",
   "max_curvature", "min_curvature"]

/-- The stable field names as listed by the spec, for comparison with the
names the sources actually use. -/
def specFieldNames : List String :=
  ["normal", "T_1", "T_2", "kappa_1", "kappa_2", "gauss_curvature",
   "mean_curvature", "shape_index", "curvedness", "class_label"]

/-! ## Helper lemmas -/

theorem chunkList_flatten {α : Type} (n : ℕ) (l : List α) :
    (chunkList n l).flatten = l := by
  induction l using chunkList.induct n with
  | case1 => simp [chunkList]
  | case2 x xs ih =>
    rw [chunkList, List.flatten_cons, ih]
    have h := List.take_append_drop (n + 1) (x :: xs)
    simp only [List.drop_succ_cons] at h
    exact h

theorem flatten_map_map {α β : Type} (f : α → β) (L : List (List α)) :
    (L.map (List.map f)).flatten = List.map f L.flatten := by
  induction L with
  | nil => rfl
  | cons h t ih => simp only [List.map_cons, List.flatten_cons, List.map_append, ih]

theorem workerPoolMap_eq_map {α β : Type} (f : α → β) (nodes : List α)
    (cores : ℕ) : workerPoolMap f nodes cores = nodes.map f := by
  unfold workerPoolMap
  rw [flatten_map_map, chunkList_flatten]

/-! ## Claim C1 -/

/-- C1 counterexample: run_gen_surface on a concrete mesh with a zero-area
triangle succeeds, returning the surface with the degenerate triangle
silently removed and the proper triangle retained, so the pipeline does
produce per-node results; no error is raised. -/
theorem c1_counterexample :
    runGenSurface degenerateMesh = Except.ok [keptTriangle] ∧
    [keptTriangle] ≠ ([] : List Triangle) := by
  constructor
  · rfl
  · decide

/-- C1 amended: for every input mesh, run_gen_surface never fails on
degenerate triangles: it succeeds and returns the surface with exactly the
zero-area triangles silently removed (the result keeps every triangle of
nonzero area and contains none of zero area). -/
theorem c1_amended (mesh : List Triangle) :
    isErr (runGenSurface mesh) = false ∧
    okPart (runGenSurface mesh) = some (genSurface mesh) ∧
    (∀ t ∈ genSurface mesh, t.area ≠ 0) ∧
    (∀ t ∈ mesh, t.area ≠ 0 → t ∈ genSurface mesh) := by
  refine ⟨rfl, rfl, ?_, ?_⟩
  · intro t ht
    have h := List.mem_filter.mp ht
    simpa using h.2
  · intro t ht h0
    exact List.mem_filter.mpr ⟨ht, by simpa using h0⟩

/-- C1 amended, evaluated at the concrete degenerate mesh. -/
theorem c1_amended_witness :
    isErr (runGenSurface degenerateMesh) = false ∧
    okPart (runGenSurface degenerateMesh) = some (genSurface degenerateMesh) :=
  ⟨(c1_amended degenerateMesh).1, (c1_amended degenerateMesh).2.1⟩

/-! ## Claim C2 -/

/-- C2 counterexample: supplying both a positive geodesic radius
(g_max = 13/2) and a positive neighborhood multiplier (k = 3) does not make
the run fail: no error is raised and the g_max naming is chosen. -/
theorem c2_counterexample :
    isErr (simpleWorkflowRadiusCheck (13 / 2) 3) = false ∧
    okPart (simpleWorkflowRadiusCheck (13 / 2) 3) = some RadiusChoice.useGmax := by
  have h : (0 : ℚ) < 13 / 2 := by norm_num
  constructor <;> simp [simpleWorkflowRadiusCheck, h, isErr, okPart]

/-- C2 amended: the parameter check of simple_workflow fails (with
PySegInputError) exactly when neither g_max nor k is positive; a positive
g_max is always accepted, even together with a positive k; and the check
is placed before the graph build. -/
theorem c2_amended (gMax k : ℚ) :
    (isErr (simpleWorkflowRadiusCheck gMax k) = true ↔ gMax ≤ 0 ∧ k ≤ 0) ∧
    (0 < gMax → simpleWorkflowRadiusCheck gMax k = Except.ok RadiusChoice.useGmax) ∧
    (gMax ≤ 0 → 0 < k → simpleWorkflowRadiusCheck gMax k = Except.ok RadiusChoice.useK) ∧
    simpleWorkflowSteps.indexOf PipelineStep.radiusCheck <
      simpleWorkflowSteps.indexOf PipelineStep.buildGraph := by
  refine ⟨?_, ?_, ?_, by decide⟩
  · unfold simpleWorkflowRadiusCheck
    split_ifs with h1 h2
    · exact iff_of_false (by simp [isErr]) (fun h => absurd h1 (not_lt.mpr h.1))
    · exact iff_of_false (by simp [isErr]) (fun h => absurd h2 (not_lt.mpr h.2))
    · exact iff_of_true (by simp [isErr]) ⟨le_of_not_lt h1, le_of_not_lt h2⟩
  · intro h
    simp [simpleWorkflowRadiusCheck, h]
  · intro h1 h2
    rw [simpleWorkflowRadiusCheck, if_neg (not_lt.mpr h1), if_pos h2]

/-- C2 amended, applied at a concrete configuration with only g_max set. -/
theorem c2_amended_witness :
    simpleWorkflowRadiusCheck (13 / 2) 0 = Except.ok RadiusChoice.useGmax :=
  (c2_amended (13 / 2) 0).2.1 (by norm_num)

/-! ## Claim C3 -/

/-- C3 counterexample: with epsilon = eta = 0, a node whose voting tensor
has three equal eigenvalues is classified 3 (no preferred orientation),
not 1 (surface patch). -/
theorem c3_counterexample :
    classifyNode 0 0 1 1 1 = 3 ∧ classifyNode 0 0 1 1 1 ≠ 1 := by
  constructor <;> norm_num [classifyNode]

/-- C3 amended: with epsilon = eta = 0, a node is classified surface patch
(class 1) exactly when the largest eigenvalue of its voting tensor strictly
exceeds the middle one, and in that case the refined normal is used; the
classes of nodes with lambda1 = lambda2 are 2 or 3 instead. -/
theorem c3_amended (l1 l2 l3 : ℚ) :
    (classifyNode 0 0 l1 l2 l3 = 1 ↔ l2 < l1) ∧
    (l2 < l1 → usesRefinedNormal 0 0 l1 l2 l3 = true) := by
  have hc : (0 * l1 < l1 - l2) ↔ l2 < l1 := by rw [zero_mul]; exact sub_pos
  have key : classifyNode 0 0 l1 l2 l3 = 1 ↔ l2 < l1 := by
    unfold classifyNode
    split_ifs with h1 h2
    · exact iff_of_true rfl (hc.mp h1)
    · exact iff_of_false (by norm_num) ((not_congr hc).mp h1)
    · exact iff_of_false (by norm_num) ((not_congr hc).mp h1)
  refine ⟨key, fun h => ?_⟩
  simp [usesRefinedNormal, key.mpr h]

/-- C3 amended, applied at concrete eigenvalues with a strict first gap. -/
theorem c3_amended_witness : usesRefinedNormal 0 0 2 1 0 = true :=
  (c3_amended 2 1 0).2 (by norm_num)

/-! ## Claim C4 -/

/-- C4: in both workflow functions the border purge appears exactly once,
the small-component purge appears exactly once, and the border purge is
executed strictly before the small-component purge. -/
theorem c4_border_before_components :
    simpleWorkflowSteps.indexOf PipelineStep.borderPurge <
      simpleWorkflowSteps.indexOf PipelineStep.componentPurge ∧
    workflowSteps.indexOf PipelineStep.borderPurge <
      workflowSteps.indexOf PipelineStep.componentPurge ∧
    simpleWorkflowSteps.count PipelineStep.borderPurge = 1 ∧
    simpleWorkflowSteps.count PipelineStep.componentPurge = 1 ∧
    workflowSteps.count PipelineStep.borderPurge = 1 ∧
    workflowSteps.count PipelineStep.componentPurge = 1 := by decide

/-! ## Claim C6 -/

/-- C6: evaluation at the failing input: with g_max = 13/2 supplied together
with k = 3 (the default value of k) and an average edge length of 2, the
radius handed to vector voting is 6 = k times the average edge length, not
the supplied 13/2. -/
theorem c6_gmax_overridden_by_k :
    okPart (simpleWorkflowGmax (13 / 2) 3 (averageEdgeLength [1, 3])) = some 6 ∧
    (6 : ℚ) ≠ 13 / 2 := by
  have ha : averageEdgeLength [1, 3] = 2 := by
    simp [averageEdgeLength]
    norm_num
  have h : (0 : ℚ) < 13 / 2 := by norm_num
  constructor
  · rw [ha]
    simp [simpleWorkflowGmax, simpleWorkflowRadiusCheck, h, okPart]
    norm_num
  · norm_num

/-! ## Claim C7 -/

/-- C7: the worker-pool dispatch of the per-node computation is independent
of the worker count: for every pure per-node record function and node list,
any two worker counts produce the same list of Curvature Records, namely
the plain map of the function over the nodes. -/
theorem c7_worker_count_independent (f : ℕ → CurvatureRecord) (nodes : List ℕ)
    (cores1 cores2 : ℕ) :
    workerPoolMap f nodes cores1 = workerPoolMap f nodes cores2 ∧
    workerPoolMap f nodes cores1 = nodes.map f := by
  rw [workerPoolMap_eq_map, workerPoolMap_eq_map]
  exact ⟨rfl, rfl⟩

/-! ## Claim C8 -/

/-- C8 counterexample: the spec field name gauss_curvature is not among the
property names the sources read; the code exposes gauss_curvature_VV
instead, and no class_label property appears at all. -/
theorem c8_counterexample :
    "gauss_curvature" ∈ specFieldNames ∧
    "gauss_curvature" ∉ workflowOutputPropertyNames ∧
    "gauss_curvature" ∉ testedPropertyNames ∧
    "class_label" ∉ workflowOutputPropertyNames ∧
    "class_label" ∉ testedPropertyNames ∧
    "gauss_curvature_VV" ∈ workflowOutputPropertyNames := by decide

/-- C8 amended: the per-node output uses kappa_1, kappa_2, T_1, T_2, the
input normal under normal and the refined normal under N_v, and the derived
scalars under the VV-suffixed names gauss_curvature_VV, mean_curvature_VV,
shape_index_VV and curvedness_VV (with no class_label array); the derived
scalars satisfy gauss = kappa1 * kappa2 and mean = (kappa1 + kappa2) / 2. -/
theorem c8_amended (k1 k2 : ℚ) :
    (buildCurvatureRecord k1 k2).gaussCurvatureVV = k1 * k2 ∧
    (buildCurvatureRecord k1 k2).meanCurvatureVV = (k1 + k2) / 2 ∧
    (buildCurvatureRecord k1 k2).kappa1 = k1 ∧
    (buildCurvatureRecord k1 k2).kappa2 = k2 ∧
    ("kappa_1" ∈ workflowOutputPropertyNames ∧
     "kappa_2" ∈ workflowOutputPropertyNames ∧
     "gauss_curvature_VV" ∈ workflowOutputPropertyNames ∧
     "mean_curvature_VV" ∈ workflowOutputPropertyNames ∧
     "shape_index_VV" ∈ workflowOutputPropertyNames ∧
     "curvedness_VV" ∈ workflowOutputPropertyNames) ∧
    ("normal" ∈ testedPropertyNames ∧ "N_v" ∈ testedPropertyNames ∧
     "T_1" ∈ testedPropertyNames ∧ "T_2" ∈ testedPropertyNames) :=
  ⟨rfl, rfl, rfl, rfl, by decide, by decide⟩

/-! ## Lemmas on the border-distance relaxation -/

theorem foldr_relax_le (d : ℕ → Option ℤ) (v : ℕ) (l : List (ℕ × ℕ × ℤ))
    (a : ℤ) :
    ∃ y ≤ a, l.foldr (fun e acc => omin (edgeCand d v e) acc) (some a) = some y := by
  induction l with
  | nil => exact ⟨a, le_refl a, rfl⟩
  | cons e l ih =>
    obtain ⟨y, hy, hfold⟩ := ih
    rw [List.foldr_cons, hfold]
    cases hc : edgeCand d v e with
    | none => exact ⟨y, hy, rfl⟩
    | some c => exact ⟨min c y, le_trans (min_le_right c y) hy, rfl⟩

theorem edgeCand_none (d : ℕ → Option ℤ) (v : ℕ) (e : ℕ × ℕ × ℤ)
    (hd : ∀ u, d u = none) : edgeCand d v e = none := by
  unfold edgeCand
  split_ifs with h1 h2
  · simp [hd]
  · simp [hd]
  · rfl

theorem relaxStep_none (g : WGraph) (d : ℕ → Option ℤ)
    (hd : ∀ u, d u = none) (v : ℕ) : relaxStep g d v = none := by
  unfold relaxStep
  have key : ∀ l : List (ℕ × ℕ × ℤ),
      l.foldr (fun e acc => omin (edgeCand d v e) acc) (d v) = none := by
    intro l
    induction l with
    | nil => exact hd v
    | cons e l ih => rw [List.foldr_cons, ih, edgeCand_none d v e hd]; rfl
  exact key g.edgesL

theorem distToBorder_empty (g : WGraph) (hb : g.borderSet = ∅) (v : ℕ) :
    distToBorder g v = none := by
  unfold distToBorder
  have key : ∀ n v, (relaxStep g)^[n] (initialBorderDist g) v = none := by
    intro n
    induction n with
    | zero => intro v; simp [initialBorderDist, hb]
    | succ n ih =>
      intro v
      rw [Function.iterate_succ_apply']
      exact relaxStep_none g _ ih v
  exact key _ v

theorem distToBorder_border_le (g : WGraph) (b : ℕ) (hb : b ∈ g.borderSet) :
    ∃ x ≤ 0, distToBorder g b = some x := by
  unfold distToBorder
  have key : ∀ n, ∃ x ≤ 0, (relaxStep g)^[n] (initialBorderDist g) b = some x := by
    intro n
    induction n with
    | zero => exact ⟨0, le_refl 0, by simp [initialBorderDist, hb]⟩
    | succ n ih =>
      obtain ⟨x, hx, hdb⟩ := ih
      rw [Function.iterate_succ_apply']
      set d := (relaxStep g)^[n] (initialBorderDist g) with hdef
      rw [show relaxStep g d b =
          g.edgesL.foldr (fun e acc => omin (edgeCand d b e) acc) (d b) from rfl]
      rw [hdb]
      obtain ⟨y, hy, hfold⟩ := foldr_relax_le d b g.edgesL x
      exact ⟨y, le_trans hy hx, hfold⟩
  exact key _

theorem foldr_relax_nonneg (d : ℕ → Option ℤ) (v : ℕ)
    (hd : ∀ u x, d u = some x → 0 ≤ x) :
    ∀ l : List (ℕ × ℕ × ℤ), (∀ e ∈ l, 0 ≤ e.2.2) →
      ∀ init : Option ℤ, (∀ x, init = some x → 0 ≤ x) →
      ∀ x, l.foldr (fun e acc => omin (edgeCand d v e) acc) init = some x → 0 ≤ x := by
  intro l
  induction l with
  | nil => intro _ init hi x hx; exact hi x hx
  | cons e l ih =>
    intro hw init hi x hx
    rw [List.foldr_cons] at hx
    have hcand : ∀ c, edgeCand d v e = some c → 0 ≤ c := by
      intro c hc
      unfold edgeCand at hc
      split_ifs at hc
      · obtain ⟨x0, hx0, hsum⟩ := Option.map_eq_some'.mp hc
        have h1 := hd e.1 x0 hx0
        have h2 := hw e (List.mem_cons_self e l)
        omega
      · obtain ⟨x0, hx0, hsum⟩ := Option.map_eq_some'.mp hc
        have h1 := hd e.2.1 x0 hx0
        have h2 := hw e (List.mem_cons_self e l)
        omega
    have hrest := ih (fun e2 he2 => hw e2 (List.mem_cons_of_mem e he2)) init hi
    cases hc : edgeCand d v e with
    | none =>
      rw [hc] at hx
      simp only [omin] at hx
      exact hrest x hx
    | some c =>
      rw [hc] at hx
      cases hr : l.foldr (fun e acc => omin (edgeCand d v e) acc) init with
      | none =>
        rw [hr] at hx
        simp only [omin, Option.some.injEq] at hx
        subst hx
        exact hcand c hc
      | some y =>
        rw [hr] at hx
        simp only [omin, Option.some.injEq] at hx
        subst hx
        exact le_min (hcand c hc) (hrest y hr)

theorem distToBorder_nonneg (g : WGraph) (hw : ∀ e ∈ g.edgesL, 0 ≤ e.2.2) :
    ∀ v x, distToBorder g v = some x → 0 ≤ x := by
  unfold distToBorder
  have key : ∀ n v x, (relaxStep g)^[n] (initialBorderDist g) v = some x → 0 ≤ x := by
    intro n
    induction n with
    | zero =>
      intro v x hx
      rw [Function.iterate_zero_apply] at hx
      unfold initialBorderDist at hx
      split_ifs at hx
      simp only [Option.some.injEq] at hx
      omega
    | succ n ih =>
      intro v x hx
      rw [Function.iterate_succ_apply'] at hx
      exact foldr_relax_nonneg _ v ih g.edgesL hw _ (ih v) x hx
  exact key _

/-! ## Lemmas on the border purge -/

theorem keepBorder_subset (t : ℤ) (g : WGraph) : keepBorder t g ⊆ g.nodesF :=
  Finset.filter_subset _ _

theorem borderSet_purgeBorder_pos (t : ℤ) (g : WGraph) (ht : 0 < t) :
    (purgeBorder t g).borderSet = ∅ := by
  rw [Finset.eq_empty_iff_forall_not_mem]
  intro b hbmem
  rw [WGraph.borderSet, Finset.mem_inter] at hbmem
  obtain ⟨hbn, hbf⟩ := hbmem
  rw [show (purgeBorder t g).nodesF = keepBorder t g from rfl] at hbn
  rw [keepBorder, Finset.mem_filter] at hbn
  obtain ⟨hbg, hkeep⟩ := hbn
  have hbb : b ∈ g.borderSet := Finset.mem_inter.mpr ⟨hbg, hbf⟩
  obtain ⟨x, hx0, hdist⟩ := distToBorder_border_le g b hbb
  rw [hdist] at hkeep
  simp only [oLt, decide_eq_false_iff_not, not_lt] at hkeep
  omega

theorem purgeBorder_no_removal (t : ℤ) (g : WGraph)
    (hkeep : ∀ v ∈ g.nodesF, oLt (distToBorder g v) t = false)
    (hc : edgesClosed g) : purgeBorder t g = g := by
  have hn : keepBorder t g = g.nodesF := Finset.filter_true_of_mem hkeep
  have he : g.edgesL.filter
      (fun e => decide (e.1 ∈ keepBorder t g ∧ e.2.1 ∈ keepBorder t g)) = g.edgesL :=
    List.filter_eq_self.mpr
      (fun e hemem => decide_eq_true (by rw [hn]; exact hc e hemem))
  obtain ⟨nodes, edges, border⟩ := g
  unfold purgeBorder
  rw [WGraph.mk.injEq]
  exact ⟨hn, he, rfl⟩

theorem purgeBorder_edgesClosed (t : ℤ) (g : WGraph) :
    edgesClosed (purgeBorder t g) := by
  intro e he
  have he2 : e ∈ g.edgesL.filter
      (fun e => decide (e.1 ∈ keepBorder t g ∧ e.2.1 ∈ keepBorder t g)) := he
  have h3 := List.of_mem_filter he2
  exact of_decide_eq_true h3

theorem purgeBorder_weights (t : ℤ) (g : WGraph)
    (hw : ∀ e ∈ g.edgesL, 0 ≤ e.2.2) :
    ∀ e ∈ (purgeBorder t g).edgesL, 0 ≤ e.2.2 :=
  fun e he => hw e (List.mem_of_mem_filter he)

theorem purgeBorder_nonpos_id (t : ℤ) (g : WGraph)
    (hw : ∀ e ∈ g.edgesL, 0 ≤ e.2.2) (ht : t ≤ 0) (hc : edgesClosed g) :
    purgeBorder t g = g := by
  apply purgeBorder_no_removal t g _ hc
  intro v hv
  cases hd : distToBorder g v with
  | none => rfl
  | some x =>
    have hx := distToBorder_nonneg g hw v x hd
    simp only [oLt, decide_eq_false_iff_not, not_lt]
    omega

theorem purgeBorder_of_empty_border (t : ℤ) (g : WGraph)
    (hb : g.borderSet = ∅) (hc : edgesClosed g) : purgeBorder t g = g := by
  apply purgeBorder_no_removal t g _ hc
  intro v hv
  rw [distToBorder_empty g hb v]
  rfl

theorem purgeBorder_idem (t : ℤ) (g : WGraph)
    (hw : ∀ e ∈ g.edgesL, 0 ≤ e.2.2) :
    purgeBorder t (purgeBorder t g) = purgeBorder t g := by
  rcases le_or_lt t 0 with ht | ht
  · exact purgeBorder_nonpos_id t _ (purgeBorder_weights t g hw) ht
      (purgeBorder_edgesClosed t g)
  · exact purgeBorder_of_empty_border t _ (borderSet_purgeBorder_pos t g ht)
      (purgeBorder_edgesClosed t g)

/-! ## Lemmas on connected components -/

theorem adjMem_symm (l : List (ℕ × ℕ × ℤ)) (u v : ℕ) :
    adjMem l u v = adjMem l v u := by
  rw [Bool.eq_iff_iff]
  simp only [adjMem, List.any_eq_true]
  constructor
  · rintro ⟨e, he, hp⟩
    exact ⟨e, he, by rw [Bool.or_comm] at hp; exact hp⟩
  · rintro ⟨e, he, hp⟩
    exact ⟨e, he, by rw [Bool.or_comm] at hp; exact hp⟩

theorem adjIn_symm (g : WGraph) : Symmetric (adjIn g) := by
  intro u v h
  exact ⟨h.2.1, h.1, by rw [adjMem_symm]; exact h.2.2⟩

theorem subset_stepSet (g : WGraph) (s : Finset ℕ) : s ⊆ stepSet g s :=
  Finset.subset_union_left

theorem stepSet_subset (g : WGraph) (s : Finset ℕ) (hs : s ⊆ g.nodesF) :
    stepSet g s ⊆ g.nodesF :=
  Finset.union_subset hs (Finset.filter_subset _ _)

theorem iterate_stepSet_subset (g : WGraph) (u : ℕ) (hu : u ∈ g.nodesF) :
    ∀ n, (stepSet g)^[n] {u} ⊆ g.nodesF := by
  intro n
  induction n with
  | zero => simpa using hu
  | succ n ih =>
    rw [Function.iterate_succ_apply']
    exact stepSet_subset g _ ih

theorem subset_iterate_stepSet (g : WGraph) (s : Finset ℕ) :
    ∀ n, s ⊆ (stepSet g)^[n] s := by
  intro n
  induction n with
  | zero => simp
  | succ n ih =>
    rw [Function.iterate_succ_apply']
    exact ih.trans (subset_stepSet g _)

theorem iterate_stepSet_card (g : WGraph) (s : Finset ℕ) :
    ∀ n, (∀ k < n, (stepSet g)^[k + 1] s ≠ (stepSet g)^[k] s) →
      s.card + n ≤ ((stepSet g)^[n] s).card := by
  intro n
  induction n with
  | zero => intro _; simp
  | succ n ih =>
    intro h
    have h1 := ih (fun k hk => h k (Nat.lt_succ_of_lt hk))
    have hne := h n (Nat.lt_succ_self n)
    have hsub : (stepSet g)^[n] s ⊆ (stepSet g)^[n + 1] s := by
      rw [Function.iterate_succ_apply']
      exact subset_stepSet g _
    have hlt : ((stepSet g)^[n] s).card < ((stepSet g)^[n + 1] s).card :=
      Finset.card_lt_card (Finset.ssubset_iff_subset_ne.mpr ⟨hsub, Ne.symm hne⟩)
    omega

theorem stepSet_compOf_fixed (g : WGraph) (u : ℕ) (hu : u ∈ g.nodesF) :
    stepSet g (compOf g u) = compOf g u := by
  unfold compOf
  by_contra hne
  have hne' : (stepSet g)^[g.nodesF.card + 1] {u} ≠ (stepSet g)^[g.nodesF.card] {u} := by
    rw [Function.iterate_succ_apply']
    exact hne
  have hall : ∀ k < g.nodesF.card + 1,
      (stepSet g)^[k + 1] {u} ≠ (stepSet g)^[k] {u} := by
    intro k hk
    by_contra hfix
    have hfixed : stepSet g ((stepSet g)^[k] {u}) = (stepSet g)^[k] {u} := by
      rw [Function.iterate_succ_apply'] at hfix
      exact hfix
    have hkn : k ≤ g.nodesF.card := Nat.lt_succ_iff.mp hk
    have h1 : (stepSet g)^[g.nodesF.card] {u} = (stepSet g)^[k] {u} := by
      calc (stepSet g)^[g.nodesF.card] {u}
          = (stepSet g)^[(g.nodesF.card - k) + k] {u} := by
            rw [Nat.sub_add_cancel hkn]
        _ = (stepSet g)^[g.nodesF.card - k] ((stepSet g)^[k] {u}) := by
            rw [Function.iterate_add_apply]
        _ = (stepSet g)^[k] {u} := Function.iterate_fixed hfixed _
    have h2 : (stepSet g)^[g.nodesF.card + 1] {u} = (stepSet g)^[k] {u} := by
      rw [Function.iterate_succ_apply', h1, hfixed]
    exact hne' (h2.trans h1.symm)
  have hcard := iterate_stepSet_card g {u} (g.nodesF.card + 1) hall
  rw [Finset.card_singleton] at hcard
  have hsub := iterate_stepSet_subset g u hu (g.nodesF.card + 1)
  have hle := Finset.card_le_card hsub
  omega

theorem mem_iterate_stepSet_rtg (g : WGraph) (u : ℕ) :
    ∀ n v, v ∈ (stepSet g)^[n] {u} → Relation.ReflTransGen (adjIn g) u v := by
  intro n
  induction n with
  | zero =>
    intro v hv
    rw [Function.iterate_zero_apply, Finset.mem_singleton] at hv
    subst hv
    exact Relation.ReflTransGen.refl
  | succ n ih =>
    intro v hv
    rw [Function.iterate_succ_apply'] at hv
    simp only [stepSet, Finset.mem_union, Finset.mem_filter] at hv
    rcases hv with hv | hv
    · exact ih v hv
    · obtain ⟨hvn, w, hw, hadj⟩ := hv
      exact Relation.ReflTransGen.tail (ih w hw) hadj

theorem rtg_mem_compOf (g : WGraph) (u v : ℕ) (hu : u ∈ g.nodesF)
    (h : Relation.ReflTransGen (adjIn g) u v) : v ∈ compOf g u := by
  induction h with
  | refl => exact subset_iterate_stepSet g {u} _ (Finset.mem_singleton_self u)
  | tail hab hbc ih =>
    rw [← stepSet_compOf_fixed g u hu]
    simp only [stepSet, Finset.mem_union, Finset.mem_filter]
    right
    exact ⟨hbc.2.1, _, ih, hbc⟩

theorem mem_compOf_iff (g : WGraph) (u v : ℕ) (hu : u ∈ g.nodesF) :
    v ∈ compOf g u ↔ Relation.ReflTransGen (adjIn g) u v :=
  ⟨mem_iterate_stepSet_rtg g u _ v, rtg_mem_compOf g u v hu⟩

theorem mem_compOf_nodes (g : WGraph) (u v : ℕ) (hu : u ∈ g.nodesF)
    (hv : v ∈ compOf g u) : v ∈ g.nodesF :=
  iterate_stepSet_subset g u hu _ hv

theorem compOf_eq_of_mem (g : WGraph) (u v : ℕ) (hu : u ∈ g.nodesF)
    (hv : v ∈ compOf g u) : compOf g v = compOf g u := by
  have hvn : v ∈ g.nodesF := mem_compOf_nodes g u v hu hv
  have huv : Relation.ReflTransGen (adjIn g) u v := (mem_compOf_iff g u v hu).mp hv
  have hvu : Relation.ReflTransGen (adjIn g) v u :=
    Relation.ReflTransGen.symmetric (adjIn_symm g) huv
  ext w
  rw [mem_compOf_iff g v w hvn, mem_compOf_iff g u w hu]
  exact ⟨fun h => huv.trans h, fun h => hvu.trans h⟩

theorem keepSmall_closed (cth : ℕ) (g : WGraph) (u v : ℕ)
    (hu : u ∈ keepSmall cth g) (hv : v ∈ compOf g u) : v ∈ keepSmall cth g := by
  rw [keepSmall, Finset.mem_filter] at hu ⊢
  obtain ⟨hun, hcard⟩ := hu
  have hvn := mem_compOf_nodes g u v hun hv
  rw [compOf_eq_of_mem g u v hun hv]
  exact ⟨hvn, hcard⟩

theorem adjMem_filter_eq (l : List (ℕ × ℕ × ℤ)) (K : Finset ℕ) (u v : ℕ)
    (hu : u ∈ K) (hv : v ∈ K) :
    adjMem (l.filter (fun e => decide (e.1 ∈ K ∧ e.2.1 ∈ K))) u v = adjMem l u v := by
  rw [Bool.eq_iff_iff]
  simp only [adjMem, List.any_eq_true, List.mem_filter]
  constructor
  · rintro ⟨e, ⟨he, _⟩, hp⟩
    exact ⟨e, he, hp⟩
  · rintro ⟨e, he, hp⟩
    refine ⟨e, ⟨he, ?_⟩, hp⟩
    have hp2 := hp
    simp only [Bool.or_eq_true, Bool.and_eq_true, beq_iff_eq] at hp2
    rcases hp2 with ⟨h1, h2⟩ | ⟨h1, h2⟩
    · exact decide_eq_true (by rw [h1, h2]; exact ⟨hu, hv⟩)
    · exact decide_eq_true (by rw [h1, h2]; exact ⟨hv, hu⟩)

theorem adjIn_purgeSmall_iff (cth : ℕ) (g : WGraph) (x y : ℕ) :
    adjIn (purgeSmall cth g) x y ↔
      x ∈ keepSmall cth g ∧ y ∈ keepSmall cth g ∧ adjMem g.edgesL x y = true := by
  have hedg : (purgeSmall cth g).edgesL =
      g.edgesL.filter (fun e => decide (e.1 ∈ keepSmall cth g ∧ e.2.1 ∈ keepSmall cth g)) := rfl
  have hnod : (purgeSmall cth g).nodesF = keepSmall cth g := rfl
  unfold adjIn
  rw [hedg, hnod]
  constructor
  · rintro ⟨hx, hy, hadj⟩
    rw [adjMem_filter_eq g.edgesL (keepSmall cth g) x y hx hy] at hadj
    exact ⟨hx, hy, hadj⟩
  · rintro ⟨hx, hy, hadj⟩
    rw [adjMem_filter_eq g.edgesL (keepSmall cth g) x y hx hy]
    exact ⟨hx, hy, hadj⟩

theorem rtg_purgeSmall_iff (cth : ℕ) (g : WGraph) (u v : ℕ)
    (hu : u ∈ keepSmall cth g) :
    Relation.ReflTransGen (adjIn (purgeSmall cth g)) u v ↔
      Relation.ReflTransGen (adjIn g) u v := by
  have hun : u ∈ g.nodesF := Finset.mem_of_mem_filter u hu
  constructor
  · intro h
    refine Relation.ReflTransGen.mono ?_ h
    intro x y hxy
    rw [adjIn_purgeSmall_iff] at hxy
    exact ⟨Finset.mem_of_mem_filter x hxy.1, Finset.mem_of_mem_filter y hxy.2.1,
      hxy.2.2⟩
  · intro h
    induction h with
    | refl => exact Relation.ReflTransGen.refl
    | tail hab hbc ih =>
      have hbk : _ ∈ keepSmall cth g :=
        keepSmall_closed cth g u _ hu (rtg_mem_compOf g u _ hun hab)
      have hck : _ ∈ keepSmall cth g :=
        keepSmall_closed cth g u _ hu
          (rtg_mem_compOf g u _ hun (Relation.ReflTransGen.tail hab hbc))
      exact Relation.ReflTransGen.tail ih
        ((adjIn_purgeSmall_iff cth g _ _).mpr ⟨hbk, hck, hbc.2.2⟩)

theorem compOf_purgeSmall_eq (cth : ℕ) (g : WGraph) (u : ℕ)
    (hu : u ∈ keepSmall cth g) :
    compOf (purgeSmall cth g) u = compOf g u := by
  have hun : u ∈ g.nodesF := Finset.mem_of_mem_filter u hu
  ext w
  rw [mem_compOf_iff (purgeSmall cth g) u w hu, mem_compOf_iff g u w hun,
    rtg_purgeSmall_iff cth g u w hu]

theorem purgeSmall_edgesClosed (cth : ℕ) (g : WGraph) :
    edgesClosed (purgeSmall cth g) := by
  intro e he
  have he2 : e ∈ g.edgesL.filter
      (fun e => decide (e.1 ∈ keepSmall cth g ∧ e.2.1 ∈ keepSmall cth g)) := he
  have h3 := List.of_mem_filter he2
  exact of_decide_eq_true h3

theorem purgeSmall_weights (cth : ℕ) (g : WGraph)
    (hw : ∀ e ∈ g.edgesL, 0 ≤ e.2.2) :
    ∀ e ∈ (purgeSmall cth g).edgesL, 0 ≤ e.2.2 :=
  fun e he => hw e (List.mem_of_mem_filter he)

theorem purgeSmall_nodes_subset (cth : ℕ) (g : WGraph) :
    (purgeSmall cth g).nodesF ⊆ g.nodesF := Finset.filter_subset _ _

theorem purgeSmall_idem (cth : ℕ) (g : WGraph) :
    purgeSmall cth (purgeSmall cth g) = purgeSmall cth g := by
  have hn : keepSmall cth (purgeSmall cth g) = (purgeSmall cth g).nodesF := by
    apply Finset.filter_true_of_mem
    intro v hv
    rw [compOf_purgeSmall_eq cth g v hv]
    exact (Finset.mem_filter.mp hv).2
  have he : (purgeSmall cth g).edgesL.filter
      (fun e => decide (e.1 ∈ keepSmall cth (purgeSmall cth g) ∧
        e.2.1 ∈ keepSmall cth (purgeSmall cth g))) = (purgeSmall cth g).edgesL := by
    apply List.filter_eq_self.mpr
    intro e hemem
    have hcl := purgeSmall_edgesClosed cth g e hemem
    rw [hn]
    exact decide_eq_true hcl
  apply WGraph.ext
  · exact hn
  · exact he
  · rfl

/-! ## Idempotence of the full Border/Component Filter -/

theorem borderComponentFilter_idem (t : ℤ) (cth : ℕ) (g : WGraph)
    (hw : ∀ e ∈ g.edgesL, 0 ≤ e.2.2) :
    borderComponentFilter t cth (borderComponentFilter t cth g) =
      borderComponentFilter t cth g := by
  unfold borderComponentFilter
  have hB : purgeBorder t (purgeSmall cth (purgeBorder t g)) =
      purgeSmall cth (purgeBorder t g) := by
    rcases le_or_lt t 0 with ht | ht
    · exact purgeBorder_nonpos_id t _
        (purgeSmall_weights cth _ (purgeBorder_weights t g hw)) ht
        (purgeSmall_edgesClosed cth _)
    · apply purgeBorder_of_empty_border
      · rw [Finset.eq_empty_iff_forall_not_mem]
        intro b hb
        rw [WGraph.borderSet, Finset.mem_inter] at hb
        have hb1 : b ∈ (purgeBorder t g).nodesF :=
          purgeSmall_nodes_subset cth _ hb.1
        have hb2 : b ∈ (purgeBorder t g).borderF := hb.2
        have hmem : b ∈ (purgeBorder t g).borderSet :=
          Finset.mem_inter.mpr ⟨hb1, hb2⟩
        rw [borderSet_purgeBorder_pos t g ht] at hmem
        exact absurd hmem (Finset.not_mem_empty b)
      · exact purgeSmall_edgesClosed cth _
  rw [hB, purgeSmall_idem]

/-! ## Claim C5 -/

/-- C5: for every graph with nonnegative edge weights and any thresholds,
the border purge is idempotent, the small-component purge is idempotent,
and the full Border/Component Filter is idempotent; in particular running
the filter twice yields exactly the same node set as running it once. -/
theorem c5_filter_idempotent (g : WGraph) (t : ℤ) (cth : ℕ)
    (hw : ∀ e ∈ g.edgesL, 0 ≤ e.2.2) :
    purgeBorder t (purgeBorder t g) = purgeBorder t g ∧
    purgeSmall cth (purgeSmall cth g) = purgeSmall cth g ∧
    borderComponentFilter t cth (borderComponentFilter t cth g) =
      borderComponentFilter t cth g ∧
    (borderComponentFilter t cth (borderComponentFilter t cth g)).nodesF =
      (borderComponentFilter t cth g).nodesF := by
  have h3 := borderComponentFilter_idem t cth g hw
  exact ⟨purgeBorder_idem t g hw, purgeSmall_idem cth g, h3, by rw [h3]⟩

/-- C5 applied to a concrete graph (a path with a border node and an
isolated node) with nonnegative edge weights. -/
theorem c5_filter_idempotent_witness :
    (∀ e ∈ gEx.edgesL, 0 ≤ e.2.2) ∧
    borderComponentFilter 1 2 (borderComponentFilter 1 2 gEx) =
      borderComponentFilter 1 2 gEx :=
  ⟨by decide, (c5_filter_idempotent gEx 1 2 (by decide)).2.2.1⟩

/-! ## Lemmas on the linear-algebra helpers -/

theorem dot3_scaleInv (iv ov : ℝ × ℝ × ℝ) (s : ℝ) :
    dot3 iv (scaleInv ov s) = dot3 iv ov / s := by
  unfold dot3 scaleInv
  ring

theorem sum_sq_pos_of_ne (x y z : ℝ) (h : ¬(x = 0 ∧ y = 0 ∧ z = 0)) :
    0 < x * x + y * y + z * z := by
  have h0 : (0 : ℝ) ≤ x * x + y * y + z * z := by
    nlinarith [mul_self_nonneg x, mul_self_nonneg y, mul_self_nonneg z]
  rcases lt_or_eq_of_le h0 with hlt | heq
  · exact hlt
  · exfalso
    have hx : x * x = 0 := le_antisymm
      (by nlinarith [mul_self_nonneg y, mul_self_nonneg z]) (mul_self_nonneg x)
    have hy : y * y = 0 := le_antisymm
      (by nlinarith [mul_self_nonneg x, mul_self_nonneg z]) (mul_self_nonneg y)
    have hz : z * z = 0 := le_antisymm
      (by nlinarith [mul_self_nonneg x, mul_self_nonneg y]) (mul_self_nonneg z)
    exact h ⟨mul_self_eq_zero.mp hx, mul_self_eq_zero.mp hy, mul_self_eq_zero.mp hz⟩

theorem scaleInv_unit (ov : ℝ × ℝ × ℝ) (hpos : 0 < dot3 ov ov) :
    euclideanLen (scaleInv ov (euclideanLen ov)) = 1 ∧ euclideanLen ov ≠ 0 := by
  have hnn : 0 ≤ dot3 ov ov := le_of_lt hpos
  have hlpos : 0 < euclideanLen ov := Real.sqrt_pos.mpr hpos
  have hlne : euclideanLen ov ≠ 0 := ne_of_gt hlpos
  have hsq : euclideanLen ov * euclideanLen ov = dot3 ov ov :=
    Real.mul_self_sqrt hnn
  refine ⟨?_, hlne⟩
  have hd : dot3 (scaleInv ov (euclideanLen ov)) (scaleInv ov (euclideanLen ov)) = 1 := by
    unfold dot3 scaleInv
    unfold dot3 at hsq
    field_simp
    linarith [hsq]
  have hgoal : euclideanLen (scaleInv ov (euclideanLen ov)) =
      Real.sqrt (dot3 (scaleInv ov (euclideanLen ov))
        (scaleInv ov (euclideanLen ov))) := rfl
  rw [hgoal, hd, Real.sqrt_one]

theorem perpVecCore_spec (a b c : ℝ) (hnz : ¬(a = 0 ∧ b = 0 ∧ c = 0)) :
    ∃ ov, perpVecCore a b c = some ov ∧ dot3 (a, b, c) ov = 0 ∧
      euclideanLen ov = 1 := by
  have hperp : dot3 (a, b, c) (perpOv a b c) = 0 := by
    unfold perpOv
    split_ifs with h1 h2
    · unfold dot3; ring
    · unfold dot3; ring
    · unfold dot3; ring
  have hpos : 0 < dot3 (perpOv a b c) (perpOv a b c) := by
    unfold perpOv
    split_ifs with h1 h2
    · unfold dot3
      nlinarith [mul_self_nonneg b, mul_self_pos.mpr h1]
    · unfold dot3
      nlinarith [mul_self_nonneg c, mul_self_pos.mpr h2]
    · have hc : c ≠ 0 := by
        intro hc
        exact hnz ⟨not_not.mp h1, not_not.mp h2, hc⟩
      unfold dot3
      nlinarith [mul_self_nonneg a, mul_self_pos.mpr hc]
  obtain ⟨hunit, hne⟩ := scaleInv_unit (perpOv a b c) hpos
  refine ⟨scaleInv (perpOv a b c) (euclideanLen (perpOv a b c)), ?_, ?_, hunit⟩
  · unfold perpVecCore
    rw [if_neg hnz, if_neg hne]
  · rw [dot3_scaleInv, hperp, zero_div]

theorem triple_cauchy_schwarz (a1 a2 a3 b1 b2 b3 : ℝ) :
    (a1 * b1 + a2 * b2 + a3 * b3) ^ 2 ≤
      (a1 * a1 + a2 * a2 + a3 * a3) * (b1 * b1 + b2 * b2 + b3 * b3) := by
  nlinarith [sq_nonneg (a1 * b2 - a2 * b1), sq_nonneg (a1 * b3 - a3 * b1),
    sq_nonneg (a2 * b3 - a3 * b2)]

/-! ## Claim C9 -/

/-- C9: perpendicular_vector returns, for every nonzero real 3-vector, a
unit vector whose dot product with the input is 0; for the zero vector and
for a 1-D array whose length is not 3, it returns None instead of raising
an exception. -/
theorem c9_perpendicular_vector_spec :
    (∀ iv : List ℝ, iv.length ≠ 3 → perpendicularVector iv = none) ∧
    perpendicularVector [0, 0, 0] = none ∧
    (∀ a b c : ℝ, ¬(a = 0 ∧ b = 0 ∧ c = 0) →
      ∃ ov, perpendicularVector [a, b, c] = some ov ∧
        dot3 (a, b, c) ov = 0 ∧ euclideanLen ov = 1) := by
  refine ⟨?_, ?_, ?_⟩
  · intro iv hlen
    cases iv with
    | nil => rfl
    | cons a t =>
      cases t with
      | nil => rfl
      | cons b t2 =>
        cases t2 with
        | nil => rfl
        | cons c t3 =>
          cases t3 with
          | nil => simp at hlen
          | cons d t4 => rfl
  · show perpVecCore 0 0 0 = none
    unfold perpVecCore
    rw [if_pos ⟨rfl, rfl, rfl⟩]
  · intro a b c hnz
    obtain ⟨ov, h1, h2, h3⟩ := perpVecCore_spec a b c hnz
    exact ⟨ov, h1, h2, h3⟩

/-- C9 applied at the concrete nonzero input (1, 0, 0). -/
theorem c9_perpendicular_vector_spec_witness :
    ∃ ov, perpendicularVector [(1 : ℝ), 0, 0] = some ov ∧
      dot3 ((1 : ℝ), 0, 0) ov = 0 ∧ euclideanLen ov = 1 :=
  c9_perpendicular_vector_spec.2.2 1 0 0 (by norm_num)

/-! ## Claim C10 -/

/-- C10: dot_norm never divides by zero: if the difference pnorm - p is the
zero vector, or the closest-point normal is the zero vector, it returns 0;
otherwise it returns the dot product of the two normalized vectors; and in
every case the result lies in the interval from -1 to 1. -/
theorem c10_dot_norm_spec (p pnorm nv : ℝ × ℝ × ℝ) :
    (pnorm = p → dotNorm p pnorm nv = 0) ∧
    (nv = (0, 0, 0) → dotNorm p pnorm nv = 0) ∧
    (pnorm ≠ p → nv ≠ (0, 0, 0) →
      dotNorm p pnorm nv =
        dot3 (normalize3 (pnorm.1 - p.1, pnorm.2.1 - p.2.1, pnorm.2.2 - p.2.2))
          (normalize3 nv)) ∧
    (-1 ≤ dotNorm p pnorm nv ∧ dotNorm p pnorm nv ≤ 1) := by
  refine ⟨?_, ?_, ?_, ?_⟩
  · intro h
    subst h
    simp only [dotNorm, scaleInv]
    have hA : (pnorm.1 - pnorm.1) * (pnorm.1 - pnorm.1) +
        (pnorm.2.1 - pnorm.2.1) * (pnorm.2.1 - pnorm.2.1) +
        (pnorm.2.2 - pnorm.2.2) * (pnorm.2.2 - pnorm.2.2) = 0 := by ring
    rw [hA, Real.sqrt_zero, if_neg (lt_irrefl 0)]
  · intro h
    subst h
    simp only [dotNorm, scaleInv]
    split_ifs with h1 h2
    · simp at h2
    · rfl
    · rfl
  · intro hne hnv
    have hvcomp : ¬(pnorm.1 - p.1 = 0 ∧ pnorm.2.1 - p.2.1 = 0 ∧
        pnorm.2.2 - p.2.2 = 0) := by
      rintro ⟨h1, h2, h3⟩
      apply hne
      have e1 : pnorm.1 = p.1 := by linarith
      have e2 : pnorm.2.1 = p.2.1 := by linarith
      have e3 : pnorm.2.2 = p.2.2 := by linarith
      exact Prod.ext e1 (Prod.ext e2 e3)
    have hncomp : ¬(nv.1 = 0 ∧ nv.2.1 = 0 ∧ nv.2.2 = 0) := by
      rintro ⟨h1, h2, h3⟩
      exact hnv (Prod.ext h1 (Prod.ext h2 h3))
    have hA := sum_sq_pos_of_ne _ _ _ hvcomp
    have hB := sum_sq_pos_of_ne _ _ _ hncomp
    simp only [dotNorm, scaleInv]
    rw [if_pos (Real.sqrt_pos.mpr hA), if_pos (Real.sqrt_pos.mpr hB)]
    rfl
  · simp only [dotNorm, scaleInv]
    split_ifs with h1 h2
    · have hA : 0 < (pnorm.1 - p.1) * (pnorm.1 - p.1) +
          (pnorm.2.1 - p.2.1) * (pnorm.2.1 - p.2.1) +
          (pnorm.2.2 - p.2.2) * (pnorm.2.2 - p.2.2) := Real.sqrt_pos.mp h1
      have hB : 0 < nv.1 * nv.1 + nv.2.1 * nv.2.1 + nv.2.2 * nv.2.2 :=
        Real.sqrt_pos.mp h2
      have hsane : Real.sqrt ((pnorm.1 - p.1) * (pnorm.1 - p.1) +
          (pnorm.2.1 - p.2.1) * (pnorm.2.1 - p.2.1) +
          (pnorm.2.2 - p.2.2) * (pnorm.2.2 - p.2.2)) ≠ 0 := ne_of_gt h1
      have hsbne : Real.sqrt (nv.1 * nv.1 + nv.2.1 * nv.2.1 +
          nv.2.2 * nv.2.2) ≠ 0 := ne_of_gt h2
      have hsA := Real.mul_self_sqrt (le_of_lt hA)
      have hsB := Real.mul_self_sqrt (le_of_lt hB)
      have hr : (pnorm.1 - p.1) / Real.sqrt ((pnorm.1 - p.1) * (pnorm.1 - p.1) +
            (pnorm.2.1 - p.2.1) * (pnorm.2.1 - p.2.1) +
            (pnorm.2.2 - p.2.2) * (pnorm.2.2 - p.2.2)) *
            (nv.1 / Real.sqrt (nv.1 * nv.1 + nv.2.1 * nv.2.1 + nv.2.2 * nv.2.2)) +
          (pnorm.2.1 - p.2.1) / Real.sqrt ((pnorm.1 - p.1) * (pnorm.1 - p.1) +
            (pnorm.2.1 - p.2.1) * (pnorm.2.1 - p.2.1) +
            (pnorm.2.2 - p.2.2) * (pnorm.2.2 - p.2.2)) *
            (nv.2.1 / Real.sqrt (nv.1 * nv.1 + nv.2.1 * nv.2.1 + nv.2.2 * nv.2.2)) +
          (pnorm.2.2 - p.2.2) / Real.sqrt ((pnorm.1 - p.1) * (pnorm.1 - p.1) +
            (pnorm.2.1 - p.2.1) * (pnorm.2.1 - p.2.1) +
            (pnorm.2.2 - p.2.2) * (pnorm.2.2 - p.2.2)) *
            (nv.2.2 / Real.sqrt (nv.1 * nv.1 + nv.2.1 * nv.2.1 + nv.2.2 * nv.2.2)) =
          ((pnorm.1 - p.1) * nv.1 + (pnorm.2.1 - p.2.1) * nv.2.1 +
            (pnorm.2.2 - p.2.2) * nv.2.2) /
          (Real.sqrt ((pnorm.1 - p.1) * (pnorm.1 - p.1) +
            (pnorm.2.1 - p.2.1) * (pnorm.2.1 - p.2.1) +
            (pnorm.2.2 - p.2.2) * (pnorm.2.2 - p.2.2)) *
           Real.sqrt (nv.1 * nv.1 + nv.2.1 * nv.2.1 + nv.2.2 * nv.2.2)) := by
        field_simp
      rw [hr]
      have hprodpos : 0 < Real.sqrt ((pnorm.1 - p.1) * (pnorm.1 - p.1) +
          (pnorm.2.1 - p.2.1) * (pnorm.2.1 - p.2.1) +
          (pnorm.2.2 - p.2.2) * (pnorm.2.2 - p.2.2)) *
          Real.sqrt (nv.1 * nv.1 + nv.2.1 * nv.2.1 + nv.2.2 * nv.2.2) :=
        mul_pos h1 h2
      have hsq : (((pnorm.1 - p.1) * nv.1 + (pnorm.2.1 - p.2.1) * nv.2.1 +
          (pnorm.2.2 - p.2.2) * nv.2.2) /
          (Real.sqrt ((pnorm.1 - p.1) * (pnorm.1 - p.1) +
            (pnorm.2.1 - p.2.1) * (pnorm.2.1 - p.2.1) +
            (pnorm.2.2 - p.2.2) * (pnorm.2.2 - p.2.2)) *
           Real.sqrt (nv.1 * nv.1 + nv.2.1 * nv.2.1 + nv.2.2 * nv.2.2))) ^ 2 ≤ 1 := by
        rw [div_pow]
        apply div_le_one_of_le₀
        · have hcs := triple_cauchy_schwarz (pnorm.1 - p.1) (pnorm.2.1 - p.2.1)
            (pnorm.2.2 - p.2.2) nv.1 nv.2.1 nv.2.2
          calc ((pnorm.1 - p.1) * nv.1 + (pnorm.2.1 - p.2.1) * nv.2.1 +
              (pnorm.2.2 - p.2.2) * nv.2.2) ^ 2
              ≤ ((pnorm.1 - p.1) * (pnorm.1 - p.1) +
                  (pnorm.2.1 - p.2.1) * (pnorm.2.1 - p.2.1) +
                  (pnorm.2.2 - p.2.2) * (pnorm.2.2 - p.2.2)) *
                (nv.1 * nv.1 + nv.2.1 * nv.2.1 + nv.2.2 * nv.2.2) := hcs
            _ = (Real.sqrt ((pnorm.1 - p.1) * (pnorm.1 - p.1) +
                  (pnorm.2.1 - p.2.1) * (pnorm.2.1 - p.2.1) +
                  (pnorm.2.2 - p.2.2) * (pnorm.2.2 - p.2.2)) *
                 Real.sqrt (nv.1 * nv.1 + nv.2.1 * nv.2.1 + nv.2.2 * nv.2.2)) ^ 2 := by
                rw [mul_pow, pow_two, pow_two, hsA, hsB]
        · positivity
      have habs := (sq_le_one_iff_abs_le_one _).mp hsq
      exact abs_le.mp habs
    · norm_num
    · norm_num

/-- C10 applied at concrete inputs with nonzero difference and normal. -/
theorem c10_dot_norm_spec_witness :
    -1 ≤ dotNorm ((0 : ℝ), 0, 0) ((1 : ℝ), 0, 0) ((2 : ℝ), 0, 0) ∧
    dotNorm ((0 : ℝ), 0, 0) ((1 : ℝ), 0, 0) ((2 : ℝ), 0, 0) ≤ 1 :=
  (c10_dot_norm_spec ((0 : ℝ), 0, 0) ((1 : ℝ), 0, 0) ((2 : ℝ), 0, 0)).2.2.2
